import Mathlib

set_option maxRecDepth 20000

/-!
# Verification of the LogGrid driver-log grid component

Shallow embedding of `src/logGrid.js`: a 24-hour driver log grid of 96
fifteen-minute slots, each slot holding a duty status 1-4, edited by
pointer drags and serialized to a 96-character digit string.

The `times` array of the source is a JavaScript array whose elements can be
single-character strings (from `gridStr.split('')`), numbers (the default
fill `1` and the values written by `saveDrag`), or holes created by writing
past the end of the array.  `JVal` models exactly those element values;
a JS array is a `List JVal` (writes at negative indices create stray
object properties that no observable operation of the component reads,
so they are modelled as no-ops on the list).
-/

namespace LogGrid

/-- A value stored in the `times` JavaScript array: a number (`saveDrag`
writes the integer duty computed by `getMouseTime`; the default fill is the
number `1`), a character (from `gridStr.split('')`), or a hole (`undefined`,
created when an index past the current length is assigned). -/
inductive JVal where
  | num (n : Int)
  | chr (c : Char)
  | undef
deriving DecidableEq, Repr

/-- The characters an element contributes to `times.join('')`: a number
renders in decimal, a character as itself, a hole as the empty string. -/
def jvalChars : JVal → List Char
  | .num n => (Int.repr n).data
  | .chr c => [c]
  | .undef => []

/-- `times.join('')` as a character list: concatenation of each element's
string rendering. -/
def joinChars : List JVal → List Char
  | [] => []
  | v :: ts => jvalChars v ++ joinChars ts

/-- The decimal digit character of a duty ordinal (`1` ↦ `'1'`, …). -/
def digitChar (d : Int) : Char := Char.ofNat (48 + d.toNat)

/-- A stored value is a valid DutyStatus: a number 1-4 or one of the
characters `'1'`-`'4'`. -/
def validSlotB : JVal → Bool
  | .num n => 1 ≤ n && n ≤ 4
  | .chr c => c = '1' || c = '2' || c = '3' || c = '4'
  | .undef => false

/-- JavaScript array element assignment `a[i] = v` for an integer index:
negative indices become stray object properties (invisible to `length`,
`join` and indexed reads below the length, hence modelled as a no-op),
indices below the length overwrite, and indices at or past the length
extend the array, padding any gap with holes. -/
def arraySet (ts : List JVal) (i : Int) (v : JVal) : List JVal :=
  if i < 0 then ts
  else if i.toNat < ts.length then ts.set i.toNat v
  else ts ++ List.replicate (i.toNat - ts.length) JVal.undef ++ [v]

/-- The body of `saveDrag`'s loop, unrolled on the iteration count:
`for (var i = r.start; i < r.end; i++) this.times[i] = this.drag.duty;`
runs exactly `max(end - start, 0)` times with `i = start, start+1, …`. -/
def saveDragGo (d : Int) : Nat → List JVal → Int → List JVal
  | 0, ts, _ => ts
  | n + 1, ts, i => saveDragGo d n (arraySet ts i (JVal.num d)) (i + 1)

/-- The effect of `saveDrag` on the `times` array for a drag range
`[s, e)` painting duty `d`. -/
def saveDragLoop (ts : List JVal) (s e d : Int) : List JVal :=
  saveDragGo d (e - s).toNat ts s

/-- `constructTimesArray`: a nonempty string of length exactly 96 is split
into its characters; anything else (empty, absent, wrong length) yields the
default array of 96 number-`1` (off-duty) entries. -/
def constructTimesArray (str : String) : List JVal :=
  if str ≠ "" ∧ str.length = 96 then str.data.map JVal.chr
  else List.replicate 96 (JVal.num 1)

/-- `toString`: `this.times.join('')`. -/
def gridToString (ts : List JVal) : String := String.mk (joinChars ts)

/-- The object returned by `getHourTotals`:
`{off, sleeper, drive, onduty}`, hour counts as exact rationals. -/
structure HourTotals where
  off : ℚ
  sleeper : ℚ
  drive : ℚ
  onduty : ℚ
deriving DecidableEq, Repr

/-- `getHourTotals`: `false` (here `none`) on an empty array, otherwise for
each duty 1-4 the number of occurrences of its digit character in
`toString()` (the `match` of the single-digit regex), divided by 4. -/
def getHourTotals (ts : List JVal) : Option HourTotals :=
  if ts.length = 0 then none
  else
    let cs := (gridToString ts).data
    some { off := (cs.count '1' : ℚ) / 4
         , sleeper := (cs.count '2' : ℚ) / 4
         , drive := (cs.count '3' : ℚ) / 4
         , onduty := (cs.count '4' : ℚ) / 4 }

/-- Select the totals entry of a duty ordinal. -/
def HourTotals.get (t : HourTotals) (d : Int) : ℚ :=
  if d = 1 then t.off
  else if d = 2 then t.sleeper
  else if d = 3 then t.drive
  else if d = 4 then t.onduty
  else 0

/-- ECMAScript `ToInt32` applied to an integer: reduce modulo `2^32` into
`[0, 2^32)` and map the upper half down by `2^32` (so `2^31` wraps to
`-2^31`). -/
def toInt32 (n : Int) : Int :=
  if 2 ^ 31 ≤ n % 2 ^ 32 then n % 2 ^ 32 - 2 ^ 32 else n % 2 ^ 32

/-- JavaScript `q | 0` applied to a (real-valued) quotient: `ToInt32`
truncates toward zero and then wraps to the signed 32-bit range.
(`±Infinity | 0` and `NaN | 0` are `0`, matching rational division by zero
yielding `0` here.) -/
def jsTrunc (q : ℚ) : Int := toInt32 (if q < 0 then -⌊-q⌋ else ⌊q⌋)

/-- `getMouseTime`, given the canvas-relative pointer coordinates `mx`,
`my` (the source subtracts the container's document offset and scroll from
`clientX`/`clientY` — DOM glue outside the model): slot index
`mx / (width/96) | 0` and duty `(my / (height/4) | 0) + 1`. -/
def getMouseTime (width height : ℚ) (mx my : Int) : Int × Int :=
  let timeIncrmnt := width / 96
  let dutyIncrmnt := height / 4
  ((jsTrunc ((mx : ℚ) / timeIncrmnt)), (jsTrunc ((my : ℚ) / dutyIncrmnt)) + 1)

/-- The grid component's mutable state: the `times` array, the `mouseDown`
flag, the drag container (`{}` is `none`; `updateDrag` always sets `range`
and `duty` together, so a populated container is `some ((start, end), duty)`),
the `readOnly` flag, and the number of times the change callback has been
invoked. -/
structure GState where
  times : List JVal
  mouseDown : Bool
  drag : Option ((Int × Int) × Int)
  readOnly : Bool
  cbCount : Nat
deriving DecidableEq, Repr

/-- The constructor: build `times` from the optional grid string (absent is
`''`), start with no drag and `mouseDown` false; `constructCanvas` fires the
callback once at the end of initialization unless the grid is read-only. -/
def initGrid (gridStr : String) (readOnly : Bool) : GState :=
  { times := constructTimesArray gridStr
  , mouseDown := false
  , drag := none
  , readOnly := readOnly
  , cbCount := if readOnly then 0 else 1 }

/-- A pointer event as the handlers see it, carrying the
`{min, duty}` pair that `getMouseTime` computes from the raw coordinates
(on a 96×4 canvas every pair in the signed 32-bit range is realizable; the
handlers are modelled over arbitrary integers, a superset). -/
inductive MEvent where
  | mousedown (m : Int × Int)
  | mousemove (m : Int × Int)
  | mouseup
  | mouseout
deriving DecidableEq, Repr

/-- `updateDrag`: keep the existing range's `start` (or begin a new range at
`m.min`), move `end` to `m.min`, and set `duty` to `m.duty`. -/
def updateDrag (s : GState) (m : Int × Int) : GState :=
  let start := match s.drag with
    | some ((st, _), _) => st
    | none => m.1
  { s with drag := some ((start, m.1), m.2) }

/-- `mousedownHandler`: record the button press and start/extend the drag. -/
def mousedownHandler (s : GState) (m : Int × Int) : GState :=
  updateDrag { s with mouseDown := true } m

/-- `saveDrag`: write the dragged duty over the range, then reset the drag
container.  When no range exists (`this.drag = {}`), the source reads
`r.start` of `undefined` and throws a `TypeError` — modelled as `none`. -/
def saveDrag (s : GState) : Option GState :=
  match s.drag with
  | none => none
  | some ((st, en), du) =>
      some { s with times := saveDragLoop s.times st en du, drag := none }

/-- `mouseupHandler`: clear `mouseDown`, commit via `saveDrag` (redrawing is
canvas-only), and fire the callback unless read-only.  An exception in
`saveDrag` aborts the handler before the callback. -/
def mouseupHandler (s : GState) : Option GState :=
  (saveDrag { s with mouseDown := false }).map fun s2 =>
    if s2.readOnly then s2 else { s2 with cbCount := s2.cbCount + 1 }

/-- `mousemoveHandler`: ignored unless the button is down, otherwise update
the drag state (and redraw, which is canvas-only). -/
def mousemoveHandler (s : GState) (m : Int × Int) : GState :=
  if s.mouseDown then updateDrag s m else s

/-- `mouseoutHandler`: if a range exists and its `end` exceeds 93, snap the
`end` to 96 and run the mouseup handler; otherwise do nothing. -/
def mouseoutHandler (s : GState) : Option GState :=
  match s.drag with
  | some ((st, en), du) =>
      if en > 93 then mouseupHandler { s with drag := some ((st, 96), du) }
      else some s
  | none => some s

/-- Deliver one pointer event.  `constructCanvas` attaches the four
listeners only when the grid is not read-only, so on a read-only grid every
event leaves the state untouched.  `none` models an uncaught exception in
the handler. -/
def dispatch (s : GState) (e : MEvent) : Option GState :=
  if s.readOnly then some s
  else match e with
    | .mousedown m => some (mousedownHandler s m)
    | .mousemove m => some (mousemoveHandler s m)
    | .mouseup => mouseupHandler s
    | .mouseout => mouseoutHandler s

/-- Deliver a sequence of pointer events. -/
def dispatchList (s : GState) : List MEvent → Option GState
  | [] => some s
  | e :: es => (dispatch s e).bind (fun s2 => dispatchList s2 es)

/-! ## Library of facts about the drag-commit loop -/

lemma arraySet_of_neg {ts : List JVal} {i : Int} {v : JVal} (hi : i < 0) :
    arraySet ts i v = ts := by
  rw [arraySet, if_pos hi]

lemma arraySet_of_lt {ts : List JVal} {i : Int} {v : JVal} (hi : ¬ i < 0)
    (hlt : i.toNat < ts.length) : arraySet ts i v = ts.set i.toNat v := by
  rw [arraySet, if_neg hi, if_pos hlt]

lemma saveDragGo_length (d : Int) :
    ∀ (n : Nat) (ts : List JVal) (i : Int), (0 < n → i + n ≤ (ts.length : Int)) →
    (saveDragGo d n ts i).length = ts.length := by
  intro n
  induction n with
  | zero => intro ts i _; rfl
  | succ n ih =>
    intro ts i h
    have h1 : i + (n + 1 : Nat) ≤ (ts.length : Int) := h (by omega)
    rw [saveDragGo]
    by_cases hi : i < 0
    · rw [arraySet_of_neg hi, ih ts (i + 1) (by intro _; omega)]
    · have hlt : i.toNat < ts.length := by omega
      rw [arraySet_of_lt hi hlt]
      have hlen : (ts.set i.toNat (JVal.num d)).length = ts.length :=
        List.length_set ..
      have hih := ih (ts.set i.toNat (JVal.num d)) (i + 1)
        (by intro _; rw [hlen]; omega)
      rw [hih, hlen]

lemma saveDragGo_getElem (d : Int) :
    ∀ (n : Nat) (ts : List JVal) (i : Int), (0 < n → i + n ≤ (ts.length : Int)) →
    ∀ j : Nat, (saveDragGo d n ts i)[j]? =
      if i ≤ (j : Int) ∧ (j : Int) < i + n then some (JVal.num d) else ts[j]? := by
  intro n
  induction n with
  | zero =>
    intro ts i _ j
    rw [if_neg (by omega)]
    rfl
  | succ n ih =>
    intro ts i h j
    have h1 : i + (n + 1 : Nat) ≤ (ts.length : Int) := h (by omega)
    rw [saveDragGo]
    by_cases hi : i < 0
    · have hih := ih ts (i + 1) (by intro _; omega) j
      rw [arraySet_of_neg hi, hih]
      split_ifs <;> first | rfl | omega
    · have hlt : i.toNat < ts.length := by omega
      rw [arraySet_of_lt hi hlt]
      have hlen : (ts.set i.toNat (JVal.num d)).length = ts.length :=
        List.length_set ..
      have hih := ih (ts.set i.toNat (JVal.num d)) (i + 1)
        (by intro _; rw [hlen]; omega) j
      rw [hih, List.getElem?_set]
      split_ifs <;> first | rfl | omega

lemma saveDragLoop_length {ts : List JVal} {s e d : Int}
    (he : e ≤ (ts.length : Int)) : (saveDragLoop ts s e d).length = ts.length := by
  rw [saveDragLoop]
  exact saveDragGo_length d _ ts s (by intro _; omega)

lemma saveDragLoop_getElem {ts : List JVal} {s e d : Int}
    (he : e ≤ (ts.length : Int)) (j : Nat) :
    (saveDragLoop ts s e d)[j]? =
      if s ≤ (j : Int) ∧ (j : Int) < e then some (JVal.num d) else ts[j]? := by
  rw [saveDragLoop, saveDragGo_getElem d _ ts s (by intro _; omega) j]
  split_ifs <;> first | rfl | omega

/-! ## Library of facts about joining and counting -/

lemma joinChars_append (l1 l2 : List JVal) :
    joinChars (l1 ++ l2) = joinChars l1 ++ joinChars l2 := by
  induction l1 with
  | nil => rfl
  | cons v l ih => rw [List.cons_append, joinChars, joinChars, ih, List.append_assoc]

lemma validSlotB_num_iff {d : Int} : validSlotB (JVal.num d) = true ↔ 1 ≤ d ∧ d ≤ 4 := by
  rw [validSlotB, Bool.and_eq_true, decide_eq_true_iff, decide_eq_true_iff]

lemma validSlot_chars {v : JVal} (h : validSlotB v = true) :
    ∃ d, 1 ≤ d ∧ d ≤ 4 ∧ jvalChars v = [digitChar d] := by
  cases v with
  | num n =>
    have hb : 1 ≤ n ∧ n ≤ 4 := validSlotB_num_iff.mp h
    obtain ⟨h1, h4⟩ := hb
    interval_cases n
    · exact ⟨1, by omega, by omega, by decide⟩
    · exact ⟨2, by omega, by omega, by decide⟩
    · exact ⟨3, by omega, by omega, by decide⟩
    · exact ⟨4, by omega, by omega, by decide⟩
  | chr c =>
    rw [validSlotB, Bool.or_eq_true, Bool.or_eq_true, Bool.or_eq_true] at h
    simp only [decide_eq_true_iff] at h
    rcases h with ((h | h) | h) | h <;> subst h
    · exact ⟨1, by omega, by omega, by decide⟩
    · exact ⟨2, by omega, by omega, by decide⟩
    · exact ⟨3, by omega, by omega, by decide⟩
    · exact ⟨4, by omega, by omega, by decide⟩
  | undef => exact absurd h (by decide)

lemma joinChars_uniform {l : List JVal} {c0 : Char}
    (h : ∀ v ∈ l, jvalChars v = [c0]) :
    joinChars l = List.replicate l.length c0 := by
  induction l with
  | nil => rfl
  | cons v l ih =>
    rw [joinChars, h v (by simp), ih (fun w hw => h w (by simp [hw]))]
    rfl

lemma count_replicate_char (c c0 : Char) (n : Nat) :
    (List.replicate n c0).count c = if c0 = c then n else 0 := by
  rw [List.count_replicate]
  split_ifs with h1 h2 h2 <;> simp_all

lemma digitChar_ne {p d : Int} (hp1 : 1 ≤ p) (hp4 : p ≤ 4) (hd1 : 1 ≤ d)
    (hd4 : d ≤ 4) (hne : p ≠ d) : digitChar p ≠ digitChar d := by
  interval_cases p <;> interval_cases d <;> first | omega | decide

lemma count_joinChars_valid_sum {l : List JVal}
    (h : ∀ v ∈ l, validSlotB v = true) :
    (joinChars l).count '1' + (joinChars l).count '2' +
      (joinChars l).count '3' + (joinChars l).count '4' = l.length := by
  induction l with
  | nil => rfl
  | cons v l ih =>
    obtain ⟨d, hd1, hd4, hchars⟩ := validSlot_chars (h v (by simp))
    have ihl := ih (fun w hw => h w (by simp [hw]))
    rw [joinChars, hchars, List.singleton_append, List.length_cons]
    interval_cases d
    · rw [show digitChar 1 = '1' from by decide,
        List.count_cons_self,
        List.count_cons_of_ne (show ('2' : Char) ≠ '1' from by decide),
        List.count_cons_of_ne (show ('3' : Char) ≠ '1' from by decide),
        List.count_cons_of_ne (show ('4' : Char) ≠ '1' from by decide)]
      omega
    · rw [show digitChar 2 = '2' from by decide,
        List.count_cons_self,
        List.count_cons_of_ne (show ('1' : Char) ≠ '2' from by decide),
        List.count_cons_of_ne (show ('3' : Char) ≠ '2' from by decide),
        List.count_cons_of_ne (show ('4' : Char) ≠ '2' from by decide)]
      omega
    · rw [show digitChar 3 = '3' from by decide,
        List.count_cons_self,
        List.count_cons_of_ne (show ('1' : Char) ≠ '3' from by decide),
        List.count_cons_of_ne (show ('2' : Char) ≠ '3' from by decide),
        List.count_cons_of_ne (show ('4' : Char) ≠ '3' from by decide)]
      omega
    · rw [show digitChar 4 = '4' from by decide,
        List.count_cons_self,
        List.count_cons_of_ne (show ('1' : Char) ≠ '4' from by decide),
        List.count_cons_of_ne (show ('2' : Char) ≠ '4' from by decide),
        List.count_cons_of_ne (show ('3' : Char) ≠ '4' from by decide)]
      omega

lemma jvalChars_num_digit {d : Int} (hd1 : 1 ≤ d) (hd4 : d ≤ 4) :
    jvalChars (JVal.num d) = [digitChar d] := by
  interval_cases d <;> decide

lemma saveDragLoop_eq_append {ts : List JVal} {a b d : Int}
    (ha : 0 ≤ a) (hab : a ≤ b) (hb : b ≤ (ts.length : Int)) :
    saveDragLoop ts a b d =
      ts.take a.toNat ++ List.replicate (b - a).toNat (JVal.num d) ++
        ts.drop b.toNat := by
  apply List.ext_getElem?
  intro j
  rw [saveDragLoop_getElem (by omega) j]
  have hx : (ts.take a.toNat ++ List.replicate (b - a).toNat (JVal.num d)).length
      = b.toNat := by
    rw [List.length_append, List.length_take, List.length_replicate]
    omega
  rw [List.getElem?_append, hx]
  by_cases h1 : j < a.toNat
  · rw [if_neg (show ¬(a ≤ (j : Int) ∧ (j : Int) < b) from by omega),
      if_pos (show j < b.toNat from by omega), List.getElem?_append,
      if_pos (show j < (List.take a.toNat ts).length from by
        rw [List.length_take]; omega),
      List.getElem?_take_of_lt h1]
  · by_cases h2 : j < b.toNat
    · rw [if_pos (show a ≤ (j : Int) ∧ (j : Int) < b from by omega), if_pos h2,
        List.getElem?_append,
        if_neg (show ¬ j < (List.take a.toNat ts).length from by
          rw [List.length_take]; omega),
        List.length_take, show min a.toNat ts.length = a.toNat from by omega,
        List.getElem?_replicate,
        if_pos (show j - a.toNat < (b - a).toNat from by omega)]
    · rw [if_neg (show ¬(a ≤ (j : Int) ∧ (j : Int) < b) from by omega),
        if_neg h2, List.getElem?_drop]
      congr 1
      omega

lemma slice_decomp (ts : List JVal) (a1 b1 : Nat) (hab : a1 ≤ b1)
    (_hb : b1 ≤ ts.length) :
    ts = ts.take a1 ++ (ts.drop a1).take (b1 - a1) ++ ts.drop b1 := by
  have h2 : (ts.drop a1).drop (b1 - a1) = ts.drop b1 := by
    rw [List.drop_drop]
    congr 1
    omega
  rw [List.append_assoc, ← h2, List.take_append_drop, List.take_append_drop]

lemma mid_uniform {ts : List JVal} {a b p : Int}
    (ha : 0 ≤ a) (hab : a ≤ b) (_hb : b ≤ (ts.length : Int))
    (hu : ∀ j : Nat, a ≤ (j : Int) → (j : Int) < b →
        ∃ v, ts[j]? = some v ∧ jvalChars v = [digitChar p]) :
    ∀ v ∈ (ts.drop a.toNat).take (b.toNat - a.toNat), jvalChars v = [digitChar p] := by
  intro v hv
  obtain ⟨j, hj⟩ := List.mem_iff_getElem?.mp hv
  have hjlen : j < ((ts.drop a.toNat).take (b.toNat - a.toNat)).length := by
    by_contra hc
    rw [List.getElem?_eq_none (by omega)] at hj
    exact Option.noConfusion hj
  rw [List.length_take, List.length_drop] at hjlen
  have hjb : j < b.toNat - a.toNat := by omega
  rw [List.getElem?_take_of_lt hjb, List.getElem?_drop] at hj
  obtain ⟨w, hw, hwc⟩ := hu (a.toNat + j) (by omega) (by omega)
  rw [hw] at hj
  cases Option.some.inj hj
  exact hwc

/-- Net effect of a committed drag on the joined string's character counts,
when the painted range was uniformly occupied by digit-`p` slots. -/
lemma count_saveDragLoop {ts : List JVal} {a b d p : Int} (c : Char)
    (ha : 0 ≤ a) (hab : a ≤ b) (hb : b ≤ (ts.length : Int))
    (hd1 : 1 ≤ d) (hd4 : d ≤ 4)
    (hu : ∀ j : Nat, a ≤ (j : Int) → (j : Int) < b →
        ∃ v, ts[j]? = some v ∧ jvalChars v = [digitChar p]) :
    (joinChars (saveDragLoop ts a b d)).count c
        + (if digitChar p = c then (b - a).toNat else 0)
      = (joinChars ts).count c
        + (if digitChar d = c then (b - a).toNat else 0) := by
  have hmid : joinChars ((ts.drop a.toNat).take (b.toNat - a.toNat))
      = List.replicate (b.toNat - a.toNat) (digitChar p) := by
    rw [joinChars_uniform (mid_uniform ha hab hb hu)]
    congr 1
    rw [List.length_take, List.length_drop]
    omega
  have hrep : joinChars (List.replicate (b - a).toNat (JVal.num d))
      = List.replicate (b - a).toNat (digitChar d) := by
    have hall : ∀ v ∈ List.replicate (b - a).toNat (JVal.num d),
        jvalChars v = [digitChar d] := by
      intro v hv
      rw [List.eq_of_mem_replicate hv, jvalChars_num_digit hd1 hd4]
    rw [joinChars_uniform hall, List.length_replicate]
  have hts : (joinChars ts).count c
      = (joinChars (ts.take a.toNat)).count c
        + (if digitChar p = c then b.toNat - a.toNat else 0)
        + (joinChars (ts.drop b.toNat)).count c := by
    conv_lhs => rw [slice_decomp ts a.toNat b.toNat (by omega) (by omega)]
    rw [joinChars_append, joinChars_append, List.count_append, List.count_append,
      hmid, count_replicate_char]
  rw [saveDragLoop_eq_append ha hab hb, joinChars_append, joinChars_append,
    List.count_append, List.count_append, hrep, count_replicate_char, hts]
  split_ifs <;> omega

lemma getHourTotals_eq {ts : List JVal} (h : ts.length ≠ 0) :
    getHourTotals ts = some
      { off := ((joinChars ts).count '1' : ℚ) / 4
      , sleeper := ((joinChars ts).count '2' : ℚ) / 4
      , drive := ((joinChars ts).count '3' : ℚ) / 4
      , onduty := ((joinChars ts).count '4' : ℚ) / 4 } := by
  rw [getHourTotals, if_neg h]
  rfl

lemma get_getHourTotals {ts : List JVal} {T : HourTotals}
    (hT : getHourTotals ts = some T) {q : Int} (hq1 : 1 ≤ q) (hq4 : q ≤ 4) :
    T.get q = ((joinChars ts).count (digitChar q) : ℚ) / 4 := by
  have hlen : ts.length ≠ 0 := by
    intro h0
    rw [getHourTotals, if_pos h0] at hT
    exact Option.noConfusion hT
  rw [getHourTotals_eq hlen] at hT
  cases Option.some.inj hT
  interval_cases q
  · rw [show digitChar 1 = '1' from by decide]; rfl
  · rw [show digitChar 2 = '2' from by decide]; rfl
  · rw [show digitChar 3 = '3' from by decide]; rfl
  · rw [show digitChar 4 = '4' from by decide]; rfl

/-! ## Library of facts about the event-handler state machine -/

lemma saveDragLoop_of_le {ts : List JVal} {s e d : Int} (h : e ≤ s) :
    saveDragLoop ts s e d = ts := by
  rw [saveDragLoop, show (e - s).toNat = 0 from by omega]
  rfl

lemma dispatchList_append (s : GState) (l1 l2 : List MEvent) :
    dispatchList s (l1 ++ l2) =
      (dispatchList s l1).bind (fun s2 => dispatchList s2 l2) := by
  induction l1 generalizing s with
  | nil => rfl
  | cons e es ih =>
    rw [List.cons_append, dispatchList, dispatchList]
    cases dispatch s e with
    | none => rfl
    | some s2 => rw [Option.some_bind, Option.some_bind, ih]

lemma moves_keep (ms : List (Int × Int)) : ∀ st : GState,
    st.readOnly = false → st.mouseDown = true → st.drag.isSome = true →
    ∃ st1, dispatchList st (ms.map MEvent.mousemove) = some st1 ∧
      st1.readOnly = false ∧ st1.mouseDown = true ∧ st1.drag.isSome = true ∧
      st1.cbCount = st.cbCount := by
  induction ms with
  | nil => exact fun st h1 h2 h3 => ⟨st, rfl, h1, h2, h3, rfl⟩
  | cons m ms ih =>
    intro st h1 h2 h3
    have hm : mousemoveHandler st m = updateDrag st m := by
      rw [mousemoveHandler, if_pos h2]
    have hstep : dispatch st (MEvent.mousemove m) = some (updateDrag st m) := by
      rw [dispatch, if_neg (by rw [h1]; exact Bool.false_ne_true), hm]
    obtain ⟨st1, hlist, k1, k2, k3, kc⟩ := ih (updateDrag st m) h1 h2 rfl
    refine ⟨st1, ?_, k1, k2, k3, by rw [kc]; rfl⟩
    rw [List.map_cons, dispatchList, hstep, Option.some_bind, hlist]

lemma mouseup_commits (st : GState) (hro : st.readOnly = false)
    (hdr : st.drag.isSome = true) :
    ∃ st2, dispatch st MEvent.mouseup = some st2 ∧
      st2.cbCount = st.cbCount + 1 := by
  obtain ⟨ts, md, dr, ro, cb⟩ := st
  obtain ⟨x, hx⟩ := Option.isSome_iff_exists.mp hdr
  simp only at hro hx
  subst hro hx
  obtain ⟨⟨a, b⟩, du⟩ := x
  exact ⟨_, rfl, rfl⟩

lemma joinChars_map_chr (l : List Char) : joinChars (l.map JVal.chr) = l := by
  induction l with
  | nil => rfl
  | cons c l ih =>
    rw [List.map_cons, joinChars, ih]
    rfl

lemma joinChars_length_valid {ts : List JVal}
    (h : ∀ v ∈ ts, validSlotB v = true) :
    (joinChars ts).length = ts.length := by
  induction ts with
  | nil => rfl
  | cons v l ih =>
    obtain ⟨d, _, _, hc⟩ := validSlot_chars (h v (by simp))
    rw [joinChars, hc]
    simp only [List.length_append, List.length_cons, List.length_nil]
    rw [ih (fun w hw => h w (by simp [hw]))]
    omega

lemma decode_chars {l : List JVal} (h : ∀ v ∈ l, ∃ c, jvalChars v = [c]) :
    ((joinChars l).map JVal.chr).map jvalChars = l.map jvalChars := by
  induction l with
  | nil => rfl
  | cons v l ih =>
    obtain ⟨c, hc⟩ := h v (by simp)
    rw [joinChars, hc, List.singleton_append, List.map_cons, List.map_cons,
      List.map_cons, ih (fun w hw => h w (by simp [hw])), hc]
    rfl

/-! ## Claims -/

/-- C1, counterexample.  `saveDrag` applies no clamping: committing the drag
range `[90, 100)` (reachable by dragging past the right edge of the canvas)
on the default 96-slot array grows the array to length 100, and committing
with the out-of-range duty 7 (reachable by pointing below the bottom duty
band) stores an invalid element — refuting both the "clamped to [0,96)" and
the "length exactly 96 with every element a valid DutyStatus" parts. -/
theorem saveDrag_overflow_counterexample :
    (saveDragLoop (List.replicate 96 (JVal.num 1)) 90 100 3).length = 100 ∧
    (saveDragLoop (List.replicate 96 (JVal.num 1)) 0 4 7)[0]? = some (JVal.num 7) ∧
    validSlotB (JVal.num 7) = false := by
  refine ⟨?_, ?_, ?_⟩ <;> decide

/-- C1, amended: provided the drag range's end does not exceed 96 and the
dragged duty is a valid status 1-4, a committed drag edit sets exactly the
slots `i` with `start ≤ i < end` (negative positions fall outside the
array, so the effective range is clamped below at 0), and the sequence
keeps length 96 with every element a valid DutyStatus. -/
theorem saveDrag_inbounds_spec (ts : List JVal) (s e d : Int)
    (hlen : ts.length = 96) (hval : ∀ v ∈ ts, validSlotB v = true)
    (hd1 : 1 ≤ d) (hd4 : d ≤ 4) (he : e ≤ 96) :
    (saveDragLoop ts s e d).length = 96 ∧
    (∀ j : Nat, (saveDragLoop ts s e d)[j]? =
        if s ≤ (j : Int) ∧ (j : Int) < e then some (JVal.num d) else ts[j]?) ∧
    (∀ v ∈ saveDragLoop ts s e d, validSlotB v = true) := by
  have he2 : e ≤ (ts.length : Int) := by omega
  refine ⟨by rw [saveDragLoop_length he2]; exact hlen,
    fun j => saveDragLoop_getElem he2 j, ?_⟩
  intro v hv
  obtain ⟨j, hj⟩ := List.mem_iff_getElem?.mp hv
  rw [saveDragLoop_getElem he2 j] at hj
  by_cases hc : s ≤ (j : Int) ∧ (j : Int) < e
  · rw [if_pos hc] at hj
    cases Option.some.inj hj
    exact validSlotB_num_iff.mpr ⟨hd1, hd4⟩
  · rw [if_neg hc] at hj
    exact hval v (List.mem_iff_getElem?.mpr ⟨j, hj⟩)

/-- C1, witness for the amended theorem at a concrete input. -/
theorem saveDrag_inbounds_spec_witness :
    (saveDragLoop (List.replicate 96 (JVal.num 1)) (-5) 10 3).length = 96 ∧
    (∀ j : Nat, (saveDragLoop (List.replicate 96 (JVal.num 1)) (-5) 10 3)[j]? =
        if -5 ≤ (j : Int) ∧ (j : Int) < 10 then some (JVal.num 3)
        else (List.replicate 96 (JVal.num 1))[j]?) ∧
    (∀ v ∈ saveDragLoop (List.replicate 96 (JVal.num 1)) (-5) 10 3,
        validSlotB v = true) :=
  saveDrag_inbounds_spec (List.replicate 96 (JVal.num 1)) (-5) 10 3
    (by decide) (by decide) (by decide) (by decide) (by decide)

/-- C3 (code bug).  A `mouseup` delivered to a non-read-only grid with no
active drag range — e.g. the user presses the button outside the canvas and
releases it over the canvas of a freshly constructed grid — makes
`saveDrag` read `this.drag.range.start` of `undefined`, raising a
`TypeError` (modelled as `none`): the handler does not complete normally. -/
theorem mouseup_without_drag_errors :
    dispatch (initGrid "" false) MEvent.mouseup = none := rfl

lemma toInt32_eq_self {n : Int} (h0 : 0 ≤ n) (h31 : n < 2 ^ 31) :
    toInt32 n = n := by
  rw [toInt32, if_neg (by omega)]
  omega

/-- C5, counterexample.  The claimed unclamped floor formula fails on two
classes of out-of-surface coordinates: at `x = -1` on a width-192 surface
(slot width 2) the source's `| 0` truncates toward zero and yields slot 0
where the floor formula yields -1, and at `x = 2^31` on a width-96 surface
`ToInt32` wraps to slot `-2^31` where the floor formula yields `2^31`. -/
theorem getMouseTime_negative_not_floor :
    ((getMouseTime 192 4 (-1) 0).1 = 0 ∧
      ⌊((-1 : Int) : ℚ) / ((192 : ℚ) / 96)⌋ = -1) ∧
    ((getMouseTime 96 4 (2 ^ 31) 0).1 = -(2 ^ 31) ∧
      ⌊((2 ^ 31 : Int) : ℚ) / ((96 : ℚ) / 96)⌋ = 2 ^ 31) := by
  refine ⟨⟨?_, ?_⟩, ⟨?_, ?_⟩⟩
  · norm_num [getMouseTime, jsTrunc, toInt32]
  · norm_num
  · norm_num [getMouseTime, jsTrunc, toInt32]
  · norm_num

/-- C5, amended: the mapping is `| 0` (ECMAScript `ToInt32`: truncation
toward zero, then a 32-bit wrap) of `x / (width/96)`, and likewise for the
duty band plus 1, with no bounds clamping beyond the division; it agrees
with the claimed floor formula exactly when the coordinates are nonnegative
(and the surface dimensions positive) and the resulting quotients stay
below `2^31`.  On negative coordinates truncation differs from floor, and
past `2^31` the value wraps. -/
theorem getMouseTime_floor_nonneg (w h : ℚ) (mx my : Int)
    (hw : 0 < w) (hh : 0 < h) (hx : 0 ≤ mx) (hy : 0 ≤ my)
    (hx32 : ⌊(mx : ℚ) / (w / 96)⌋ < 2 ^ 31)
    (hy32 : ⌊(my : ℚ) / (h / 4)⌋ < 2 ^ 31) :
    getMouseTime w h mx my =
      (⌊(mx : ℚ) / (w / 96)⌋, ⌊(my : ℚ) / (h / 4)⌋ + 1) := by
  have h1 : ¬ ((mx : ℚ) / (w / 96) < 0) :=
    not_lt.mpr (div_nonneg (by exact_mod_cast hx) (by positivity))
  have h2 : ¬ ((my : ℚ) / (h / 4) < 0) :=
    not_lt.mpr (div_nonneg (by exact_mod_cast hy) (by positivity))
  have hx0 : 0 ≤ ⌊(mx : ℚ) / (w / 96)⌋ := Int.floor_nonneg.mpr (not_lt.mp h1)
  have hy0 : 0 ≤ ⌊(my : ℚ) / (h / 4)⌋ := Int.floor_nonneg.mpr (not_lt.mp h2)
  simp only [getMouseTime, jsTrunc]
  rw [if_neg h1, if_neg h2, toInt32_eq_self hx0 hx32, toInt32_eq_self hy0 hy32]

/-- C5, witness for the amended theorem at a concrete input. -/
theorem getMouseTime_floor_nonneg_witness :
    getMouseTime 96 4 10 2 =
      (⌊((10 : Int) : ℚ) / ((96 : ℚ) / 96)⌋, ⌊((2 : Int) : ℚ) / ((4 : ℚ) / 4)⌋ + 1) :=
  getMouseTime_floor_nonneg 96 4 10 2 (by norm_num) (by norm_num)
    (by decide) (by decide) (by norm_num) (by norm_num)

/-- C7 (confirmed): committing a drag range whose end is not greater than
its start leaves every slot of the `times` array unchanged — the loop
`for (i = start; i < end; i++)` runs zero times. -/
theorem reverse_drag_noop (st : GState) (a b du : Int)
    (hdrag : st.drag = some ((a, b), du)) (hba : b ≤ a) :
    ∃ st2, saveDrag st = some st2 ∧ st2.times = st.times := by
  obtain ⟨ts, md, dr, ro, cb⟩ := st
  simp only at hdrag
  subst hdrag
  exact ⟨_, rfl, saveDragLoop_of_le hba⟩

/-- C7, witness at a concrete reversed drag. -/
theorem reverse_drag_noop_witness :
    ∃ st2, saveDrag ⟨List.replicate 96 (JVal.num 1), true, some ((5, 3), 2), false, 1⟩
        = some st2 ∧
      st2.times = (⟨List.replicate 96 (JVal.num 1), true, some ((5, 3), 2), false, 1⟩ :
        GState).times :=
  reverse_drag_noop ⟨List.replicate 96 (JVal.num 1), true, some ((5, 3), 2), false, 1⟩
    5 3 2 rfl (by omega)

/-- C8 (confirmed): on a read-only grid no pointer listeners are attached,
so any sequence of pointer events leaves the state — in particular the
`times` array and the callback count — untouched; moreover construction of
a read-only grid never fires the callback. -/
theorem readonly_events_noop (s : GState) (evs : List MEvent)
    (hro : s.readOnly = true) :
    dispatchList s evs = some s ∧ (∀ str, (initGrid str true).cbCount = 0) := by
  refine ⟨?_, fun _ => rfl⟩
  induction evs with
  | nil => rfl
  | cons e es ih =>
    rw [dispatchList, dispatch.eq_def, if_pos hro, Option.some_bind]
    exact ih

/-- C8, witness at a concrete read-only grid and gesture. -/
theorem readonly_events_noop_witness :
    dispatchList (initGrid "" true)
        [MEvent.mousedown (10, 3), MEvent.mousemove (20, 3), MEvent.mouseup]
      = some (initGrid "" true) ∧
    (∀ str, (initGrid str true).cbCount = 0) :=
  readonly_events_noop (initGrid "" true)
    [MEvent.mousedown (10, 3), MEvent.mousemove (20, 3), MEvent.mouseup] rfl

/-- C9 (confirmed): decoding any string whose length is not 96 (including
the empty string, which also stands for an absent input) yields the default
sequence of 96 off-duty (number 1) slots, by the fallback branch rather
than an error. -/
theorem decode_wrong_length_default (str : String) (h : str.length ≠ 96) :
    constructTimesArray str = List.replicate 96 (JVal.num 1) := by
  rw [constructTimesArray, if_neg (fun hc => h hc.2)]

/-- C9, witness at a concrete wrong-length input. -/
theorem decode_wrong_length_default_witness :
    constructTimesArray "123" = List.replicate 96 (JVal.num 1) :=
  decode_wrong_length_default "123" (by decide)

/-- C2, counterexample.  The constructor itself fires the change callback
once on a non-read-only grid (end of `constructCanvas`), although no edit
has been committed — so the callback does not fire only at pointer-up. -/
theorem callback_fires_at_construction : (initGrid "" false).cbCount = 1 := rfl

/-- C2, amended: on a non-read-only grid the callback fires exactly once at
construction; thereafter, for every gesture of pointer-down, any number of
moves, then pointer-up, it fires exactly once (at the pointer-up commit)
and never while the drag is still in progress. -/
theorem gesture_fires_callback_once (s : GState) (hro : s.readOnly = false)
    (m : Int × Int) (ms : List (Int × Int)) :
    (∃ s1, dispatchList s (MEvent.mousedown m :: List.map MEvent.mousemove ms)
        = some s1 ∧ s1.cbCount = s.cbCount) ∧
    (∃ s2, dispatchList s
        ((MEvent.mousedown m :: List.map MEvent.mousemove ms) ++ [MEvent.mouseup])
        = some s2 ∧ s2.cbCount = s.cbCount + 1) := by
  have hdown : dispatch s (MEvent.mousedown m) = some (mousedownHandler s m) := by
    rw [dispatch, if_neg (by rw [hro]; exact Bool.false_ne_true)]
  have hd_ro : (mousedownHandler s m).readOnly = s.readOnly := rfl
  have hd_cb : (mousedownHandler s m).cbCount = s.cbCount := rfl
  obtain ⟨s1, hmoves, k1, k2, k3, kc⟩ :=
    moves_keep ms (mousedownHandler s m) (by rw [hd_ro, hro]) rfl rfl
  have hpre : dispatchList s (MEvent.mousedown m :: List.map MEvent.mousemove ms)
      = some s1 := by
    rw [dispatchList, hdown, Option.some_bind, hmoves]
  have hc1 : s1.cbCount = s.cbCount := by rw [kc, hd_cb]
  refine ⟨⟨s1, hpre, hc1⟩, ?_⟩
  obtain ⟨s2, hup, hc2⟩ := mouseup_commits s1 k1 k3
  refine ⟨s2, ?_, by rw [hc2, hc1]⟩
  rw [dispatchList_append, hpre, Option.some_bind, dispatchList, hup,
    Option.some_bind]
  rfl

/-- C2, witness for the amended theorem: the spec's scenario (down at slot
10 painting duty 3, move to slot 20, release) on a fresh editable grid. -/
theorem gesture_fires_callback_once_witness :
    (∃ s1, dispatchList (initGrid "" false)
        (MEvent.mousedown (10, 3) :: List.map MEvent.mousemove [(20, 3)])
        = some s1 ∧ s1.cbCount = (initGrid "" false).cbCount) ∧
    (∃ s2, dispatchList (initGrid "" false)
        ((MEvent.mousedown (10, 3) :: List.map MEvent.mousemove [(20, 3)]) ++
          [MEvent.mouseup])
        = some s2 ∧ s2.cbCount = (initGrid "" false).cbCount + 1) :=
  gesture_fires_callback_once (initGrid "" false) rfl (10, 3) [(20, 3)]

/-- C4 (confirmed): decoding a 96-character string of digits 1-4 yields a
sequence whose re-encoding is byte-identical to the input, and decoding the
encoding of any valid 96-slot sequence yields a sequence holding the same
duty status at every slot (`decode(encode(s)) == s` at the DutyStatus
level; the JS array may represent the same status as the character `'3'` or
the number `3` — under JS loose equality `'3' == 3` — so equality is
stated on the per-slot rendered digit). -/
theorem encode_decode_roundtrip :
    (∀ t : String, t.length = 96 →
        (∀ c ∈ t.data, c = '1' ∨ c = '2' ∨ c = '3' ∨ c = '4') →
        gridToString (constructTimesArray t) = t) ∧
    (∀ ts : List JVal, ts.length = 96 → (∀ v ∈ ts, validSlotB v = true) →
        (constructTimesArray (gridToString ts)).map jvalChars
          = ts.map jvalChars) := by
  constructor
  · intro t hlen _
    have hne : t ≠ "" := by
      intro h0
      rw [h0] at hlen
      exact absurd hlen (by decide)
    rw [constructTimesArray, if_pos ⟨hne, hlen⟩, gridToString, joinChars_map_chr]
  · intro ts hlen hval
    have hexists : ∀ v ∈ ts, ∃ c, jvalChars v = [c] := fun v hv =>
      (validSlot_chars (hval v hv)).elim (fun d hd => ⟨digitChar d, hd.2.2⟩)
    have hslen : (gridToString ts).length = 96 := by
      have h0 : (gridToString ts).length = (joinChars ts).length := rfl
      rw [h0, joinChars_length_valid hval, hlen]
    have hne : gridToString ts ≠ "" := by
      intro h0
      rw [h0] at hslen
      exact absurd hslen (by decide)
    rw [constructTimesArray, if_pos ⟨hne, hslen⟩]
    have hdata : (gridToString ts).data = joinChars ts := rfl
    rw [hdata]
    exact decode_chars hexists

/-- C4, witness at concrete inputs for both directions. -/
theorem encode_decode_roundtrip_witness :
    gridToString (constructTimesArray (String.mk (List.replicate 96 '1')))
      = String.mk (List.replicate 96 '1') ∧
    (constructTimesArray (gridToString (List.replicate 96 (JVal.num 2)))).map
        jvalChars
      = (List.replicate 96 (JVal.num 2)).map jvalChars :=
  ⟨encode_decode_roundtrip.1 (String.mk (List.replicate 96 '1'))
      (by decide) (by decide),
   encode_decode_roundtrip.2 (List.replicate 96 (JVal.num 2))
      (by decide) (by decide)⟩

/-- C10 (confirmed): on any 96-slot sequence of valid duty statuses the
four hour totals are nonnegative and sum to exactly 24. -/
theorem totals_sum_to_24 (ts : List JVal) (hlen : ts.length = 96)
    (hval : ∀ v ∈ ts, validSlotB v = true) :
    ∃ T, getHourTotals ts = some T ∧ 0 ≤ T.off ∧ 0 ≤ T.sleeper ∧
      0 ≤ T.drive ∧ 0 ≤ T.onduty ∧
      T.off + T.sleeper + T.drive + T.onduty = 24 := by
  refine ⟨_, getHourTotals_eq (by omega), by positivity, by positivity,
    by positivity, by positivity, ?_⟩
  have hsum := count_joinChars_valid_sum hval
  rw [hlen] at hsum
  have hQ : ((joinChars ts).count '1' : ℚ) + ((joinChars ts).count '2' : ℚ)
      + ((joinChars ts).count '3' : ℚ) + ((joinChars ts).count '4' : ℚ)
      = 96 := by exact_mod_cast hsum
  show ((joinChars ts).count '1' : ℚ) / 4 + ((joinChars ts).count '2' : ℚ) / 4
      + ((joinChars ts).count '3' : ℚ) / 4 + ((joinChars ts).count '4' : ℚ) / 4
      = 24
  linarith

/-- C10, witness at the default all-off-duty grid. -/
theorem totals_sum_to_24_witness :
    ∃ T, getHourTotals (List.replicate 96 (JVal.num 1)) = some T ∧
      0 ≤ T.off ∧ 0 ≤ T.sleeper ∧ 0 ≤ T.drive ∧ 0 ≤ T.onduty ∧
      T.off + T.sleeper + T.drive + T.onduty = 24 :=
  totals_sum_to_24 (List.replicate 96 (JVal.num 1)) (by decide) (by decide)

/-- C6, counterexample.  Painting `[0, 4)` with duty 1 over a range already
occupied by duty 1 (the default grid) changes no totals entry at all,
although the claim requires exactly two entries to change, by
`(4-0)/4 = 1 ≠ 0` hours. -/
theorem totals_unchanged_same_duty :
    getHourTotals (saveDragLoop (List.replicate 96 (JVal.num 1)) 0 4 1)
      = getHourTotals (List.replicate 96 (JVal.num 1)) ∧
    ((4 : ℚ) - 0) / 4 ≠ 0 := by
  constructor
  · have h1 : saveDragLoop (List.replicate 96 (JVal.num 1)) 0 4 1
        = List.replicate 96 (JVal.num 1) := by decide
    rw [h1]
  · norm_num

/-- C6, amended: if the painted range `[a, b)` (with `0 ≤ a < b ≤ 96`) was
previously uniformly occupied by a single valid status `p` different from
the painted valid status `d`, then committing the drag changes exactly two
totals entries: `d`'s total grows by `(b-a)/4` hours, `p`'s total shrinks
by `(b-a)/4` hours, and the other statuses' totals are unchanged.  (When
the range is mixed or already holds `d`, the claim's premise of a single
distinct previous occupant fails, as the counterexample shows.) -/
theorem totals_change_by_quarter_hours (ts : List JVal) (a b d p : Int)
    (hlen : ts.length = 96) (ha : 0 ≤ a) (hab : a < b) (hb : b ≤ 96)
    (hd1 : 1 ≤ d) (hd4 : d ≤ 4) (hp1 : 1 ≤ p) (hp4 : p ≤ 4) (hpd : p ≠ d)
    (hu : ∀ j : Nat, a ≤ (j : Int) → (j : Int) < b →
        ∃ v, ts[j]? = some v ∧ jvalChars v = [digitChar p]) :
    ∃ T T2, getHourTotals ts = some T ∧
      getHourTotals (saveDragLoop ts a b d) = some T2 ∧
      T2.get d = T.get d + (((b : ℚ) - (a : ℚ)) / 4) ∧
      T2.get p = T.get p - (((b : ℚ) - (a : ℚ)) / 4) ∧
      (∀ q : Int, 1 ≤ q → q ≤ 4 → q ≠ d → q ≠ p → T2.get q = T.get q) := by
  have hb2 : b ≤ (ts.length : Int) := by omega
  have hlen2 : (saveDragLoop ts a b d).length ≠ 0 := by
    rw [saveDragLoop_length hb2]
    omega
  have hT := @getHourTotals_eq ts (by omega)
  have hT2 := @getHourTotals_eq (saveDragLoop ts a b d) hlen2
  have key := fun c => count_saveDragLoop c ha (le_of_lt hab) hb2 hd1 hd4 hu
  have hkQ : (((b - a).toNat : Nat) : ℚ) = (b : ℚ) - (a : ℚ) := by
    have h0 : ((b - a).toNat : Int) = b - a := Int.toNat_of_nonneg (by omega)
    exact_mod_cast h0
  refine ⟨_, _, hT, hT2, ?_, ?_, ?_⟩
  · have hc := key (digitChar d)
    rw [if_neg (digitChar_ne hp1 hp4 hd1 hd4 hpd), if_pos rfl] at hc
    rw [get_getHourTotals hT2 hd1 hd4, get_getHourTotals hT hd1 hd4]
    have heq : (joinChars (saveDragLoop ts a b d)).count (digitChar d)
        = (joinChars ts).count (digitChar d) + (b - a).toNat := by omega
    rw [heq]
    push_cast [hkQ]
    ring
  · have hc := key (digitChar p)
    rw [if_pos rfl, if_neg (digitChar_ne hd1 hd4 hp1 hp4 (Ne.symm hpd))] at hc
    rw [get_getHourTotals hT2 hp1 hp4, get_getHourTotals hT hp1 hp4]
    have heq : (joinChars ts).count (digitChar p)
        = (joinChars (saveDragLoop ts a b d)).count (digitChar p)
          + (b - a).toNat := by omega
    rw [heq]
    push_cast [hkQ]
    ring
  · intro q hq1 hq4 hqd hqp
    have hc := key (digitChar q)
    rw [if_neg (digitChar_ne hp1 hp4 hq1 hq4 (Ne.symm hqp)),
      if_neg (digitChar_ne hd1 hd4 hq1 hq4 (Ne.symm hqd))] at hc
    rw [get_getHourTotals hT2 hq1 hq4, get_getHourTotals hT hq1 hq4]
    have heq : (joinChars (saveDragLoop ts a b d)).count (digitChar q)
        = (joinChars ts).count (digitChar q) := by omega
    rw [heq]

/-- C6, witness for the amended theorem: painting `[0, 4)` with Driving (3)
over a default all-off-duty (1) grid. -/
theorem totals_change_by_quarter_hours_witness :
    ∃ T T2, getHourTotals (List.replicate 96 (JVal.num 1)) = some T ∧
      getHourTotals (saveDragLoop (List.replicate 96 (JVal.num 1)) 0 4 3)
        = some T2 ∧
      T2.get 3 = T.get 3 + ((((4 : Int) : ℚ) - ((0 : Int) : ℚ)) / 4) ∧
      T2.get 1 = T.get 1 - ((((4 : Int) : ℚ) - ((0 : Int) : ℚ)) / 4) ∧
      (∀ q : Int, 1 ≤ q → q ≤ 4 → q ≠ 3 → q ≠ 1 → T2.get q = T.get q) :=
  totals_change_by_quarter_hours (List.replicate 96 (JVal.num 1)) 0 4 3 1
    (by decide) (by omega) (by omega) (by omega) (by omega) (by omega)
    (by omega) (by omega) (by omega)
    (fun j _ h4 => ⟨JVal.num 1,
      by rw [List.getElem?_replicate, if_pos (by omega)], by decide⟩)

end LogGrid
